import Mathlib

/-!
Verification of the training/evaluation orchestrator in
`src/recbole/trainer/trainer.py` (classes `Trainer`, `FairGoTrainer`,
`PFCNTrainer`).  Python code is shallowly embedded: tensors of scores
become lists or `Fin`-indexed functions over `ℚ`, the IEEE value
`-np.inf` becomes `⊥` of `WithBot ℚ` (or the explicit `XVal.negInf`),
a NaN loss becomes `Option.none`, exceptions become `Except`/state
pairs, and the stream of `np.random.choice` draws becomes an explicit
function `ℕ → List ℕ`.
-/

namespace RecTrainer

/-! ## Mask sampler

`FairGoTrainer._train_epoch` (trainer.py 688-692) and
`PFCNTrainer._train_epoch` (trainer.py 878-882):

    mask = np.zeros(self.sst_num)
    while mask.sum() == 0:
        mask = np.random.choice([0,1], self.sst_num)
    sst_list = [sst for i, sst in self.mask_label.items() if mask[i]!=0]

The loop is driven by the stream `draws` of random vectors; `fuel`
bounds the number of iterations so the function is total, returning
`none` when no draw within `fuel` has a nonzero sum.  The accepted
mask is returned together with the number of draws performed. -/
def sampleMask (draws : ℕ → List ℕ) : ℕ → ℕ → Option (List ℕ × ℕ)
  | 0, _ => none
  | fuel + 1, k => if (draws k).sum = 0 then sampleMask draws fuel (k + 1) else some (draws k, k + 1)

/-- `mask_label = {i: sst for i, sst in enumerate(sst_attr_list)}` and
`sst_list = [sst for i, sst in self.mask_label.items() if mask[i]!=0]`
(trainer.py 692, 882): the attributes at positions where the mask is
nonzero, in declaration order. -/
def sstListOf (attrs : List String) (mask : List ℕ) : List String :=
  (attrs.zip mask).filterMap (fun p => if p.2 ≠ 0 then some p.1 else none)

theorem sampleMask_spec (draws : ℕ → List ℕ) :
    ∀ (fuel k : ℕ) (m : List ℕ) (c : ℕ),
      sampleMask draws fuel k = some (m, c) → m = draws (c - 1) ∧ m.sum ≠ 0 ∧ k < c := by
  intro fuel
  induction fuel with
  | zero => intro k m c h; simp [sampleMask] at h
  | succ n ih =>
    intro k m c h
    rw [sampleMask] at h
    by_cases hz : (draws k).sum = 0
    · rw [if_pos hz] at h
      rcases ih (k + 1) m c h with ⟨h1, h2, h3⟩
      exact ⟨h1, h2, by omega⟩
    · rw [if_neg hz] at h
      injection h with h'
      injection h' with hm hc
      subst hc
      simp only [Nat.add_sub_cancel]
      exact ⟨hm.symm, by rw [← hm]; exact hz, by omega⟩

theorem sstListOf_ne_nil :
    ∀ (attrs : List String) (mask : List ℕ),
      attrs.length = mask.length → mask.sum ≠ 0 → sstListOf attrs mask ≠ [] := by
  intro attrs
  induction attrs with
  | nil =>
    intro mask hlen hsum
    cases mask with
    | nil => simp at hsum
    | cons b bs => simp at hlen
  | cons a as ih =>
    intro mask hlen hsum
    cases mask with
    | nil => simp at hlen
    | cons b bs =>
      by_cases hb : b = 0
      · subst hb
        simp only [List.sum_cons, Nat.zero_add] at hsum
        have := ih bs (by simpa using hlen) hsum
        simp [sstListOf, List.zip_cons_cons, List.filterMap_cons] at this ⊢
        exact this
      · simp [sstListOf, List.zip_cons_cons, List.filterMap_cons, hb]

/-- C4: whenever the rejection-sampling loop terminates, the accepted
mask has a nonzero entry, so the derived revealed subset `sst_list`
is non-empty. -/
theorem mask_never_empty (attrs : List String) (draws : ℕ → List ℕ)
    (fuel k : ℕ) (m : List ℕ) (c : ℕ)
    (hlen : ∀ j, (draws j).length = attrs.length)
    (h : sampleMask draws fuel k = some (m, c)) :
    m.sum ≠ 0 ∧ sstListOf attrs m ≠ [] := by
  rcases sampleMask_spec draws fuel k m c h with ⟨hm, hsum, _⟩
  refine ⟨hsum, sstListOf_ne_nil attrs m ?_ hsum⟩
  rw [hm]; exact (hlen (c - 1)).symm

/-- Closed witness for `mask_never_empty`. -/
theorem mask_never_empty_witness :
    List.sum [1] ≠ 0 ∧ sstListOf ["gender"] [1] ≠ [] :=
  mask_never_empty ["gender"] (fun _ => [1]) 1 0 [1] 1 (fun _ => rfl) (by decide)

/-- C7 counterexample: with a single sensitive attribute (N = 1) the
loop is NOT a guaranteed single draw.  `np.random.choice([0,1], 1)`
can return the zero vector `[0]`, which fails the `mask.sum() == 0`
test and is redrawn: on the outcome whose first draw is `[0]` and
whose second is `[1]`, the loop performs two draws. -/
theorem single_attr_two_draws :
    sampleMask (fun k => if k = 0 then [0] else [1]) 5 0 = some ([1], 2) ∧ (2 : ℕ) ≠ 1 := by
  constructor
  · rfl
  · decide

theorem sampleMask_first (draws : ℕ → List ℕ) :
    ∀ (fuel k : ℕ) (m : List ℕ) (c : ℕ),
      sampleMask draws fuel k = some (m, c) →
        m = draws (c - 1) ∧ m.sum ≠ 0 ∧ k < c ∧
          (∀ j, k ≤ j → j < c - 1 → (draws j).sum = 0) := by
  intro fuel
  induction fuel with
  | zero => intro k m c h; simp [sampleMask] at h
  | succ n ih =>
    intro k m c h
    rw [sampleMask] at h
    by_cases hz : (draws k).sum = 0
    · rw [if_pos hz] at h
      rcases ih (k + 1) m c h with ⟨h1, h2, h3, h4⟩
      refine ⟨h1, h2, by omega, ?_⟩
      intro j hkj hjc
      rcases Nat.eq_or_lt_of_le hkj with hjk | hjk
      · rw [← hjk]; exact hz
      · exact h4 j (by omega) hjc
    · rw [if_neg hz] at h
      injection h with h'
      injection h' with hm hc
      subst hc
      simp only [Nat.add_sub_cancel]
      refine ⟨hm.symm, by rw [← hm]; exact hz, by omega, ?_⟩
      intro j hkj hjc
      omega

/-- C7 amended: for any attribute count, whenever the rejection loop
accepts, the accepted mask is the first draw with nonzero sum — every
earlier draw was a zero vector — so the number of draws performed is
the index of the first nonzero draw plus one, and the loop performs
exactly one draw precisely on those outcomes whose first draw is
nonzero. -/
theorem single_draw_iff_first_nonzero (draws : ℕ → List ℕ) (fuel : ℕ) (m : List ℕ) (c : ℕ)
    (h : sampleMask draws fuel 0 = some (m, c)) :
    m = draws (c - 1) ∧ m.sum ≠ 0 ∧ 1 ≤ c ∧
      (∀ j, j < c - 1 → (draws j).sum = 0) ∧
      (c = 1 ↔ (draws 0).sum ≠ 0) := by
  rcases sampleMask_first draws fuel 0 m c h with ⟨h1, h2, h3, h4⟩
  refine ⟨h1, h2, by omega, fun j hj => h4 j (Nat.zero_le j) hj, ?_, ?_⟩
  · intro hc
    subst hc
    rw [h1] at h2
    simpa using h2
  · intro hnz
    by_contra hc
    have hzero : (draws 0).sum = 0 := h4 0 (Nat.zero_le 0) (by omega)
    exact hnz hzero

/-- Closed witness for `single_draw_iff_first_nonzero`: on the stream
whose draw 0 is `[0]` and whose later draws are `[1]`, the loop
accepts `([1], 2)`, the skipped draw 0 was the zero vector, and the
draw count 2 is not 1 because draw 0 had zero sum. -/
theorem single_draw_iff_first_nonzero_witness :
    List.sum [1] ≠ 0 ∧ ((2 : ℕ) = 1 ↔ List.sum [0] ≠ 0) := by
  have h := single_draw_iff_first_nonzero
    (fun k => if k = 0 then [0] else [1]) 5 [1] 2 (by decide)
  exact ⟨h.2.1, h.2.2.2.2⟩

/-! ## Batch splitting

`Trainer._spilt_predict` (trainer.py 517-531): the per-field tensors
of an interaction are split into contiguous blocks of at most
`test_batch_size` rows, the model predicts each block in order, a
0-dimensional (scalar) block result is promoted via `unsqueeze(0)`,
and the per-block results are concatenated.  A batch is embedded as a
list of rows; `tensor.split(C, dim=0)` applied to every field and
re-assembled per block is the block decomposition of the row list. -/

/-- Result of one `model.predict` call: a 0-dimensional scalar or a
1-dimensional sequence of scores. -/
inductive PredOut (β : Type) where
  | scalar (b : β)
  | vec (l : List β)

/-- The promotion step `if len(result.shape) == 0: result = result.unsqueeze(0)`
followed by reading the scores off: a scalar becomes a length-1
sequence. -/
def PredOut.toVec {β : Type} : PredOut β → List β
  | scalar b => [b]
  | vec l => l

/-- `tensor.split(C, dim=0)`: contiguous blocks of `C` rows, the last
block possibly shorter. -/
def splitBlocks {α : Type} (C : ℕ) (l : List α) : List (List α) :=
  if hC : C = 0 then []
  else
    match l with
    | [] => []
    | a :: l' => (a :: l').take C :: splitBlocks C ((a :: l').drop C)
termination_by l.length
decreasing_by
  simp only [List.length_drop, List.length_cons]
  omega

/-- `num_block = (batch_size + self.test_batch_size - 1) // self.test_batch_size`
(trainer.py 521). -/
def numBlock (batchSize testBatchSize : ℕ) : ℕ :=
  (batchSize + testBatchSize - 1) / testBatchSize

/-- `Trainer._spilt_predict`: predict block `i` of the per-field split
for `i in range(num_block)` and concatenate
(`torch.cat(result_list, dim=0)`). -/
def spiltPredict {α β : Type} (pred : List α → PredOut β) (C : ℕ) (xs : List α) : List β :=
  ((List.range (numBlock xs.length C)).map
    (fun i => (pred ((splitBlocks C xs).getD i [])).toVec)).flatten

theorem splitBlocks_join {α : Type} (C : ℕ) (hC : C ≠ 0) :
    ∀ l : List α, (splitBlocks C l).flatten = l := by
  have main : ∀ (n : ℕ) (l : List α), l.length = n → (splitBlocks C l).flatten = l := by
    intro n
    induction n using Nat.strong_induction_on with
    | _ n ih =>
      intro l hl
      match l with
      | [] => rw [splitBlocks]; simp
      | a :: l' =>
        rw [splitBlocks, dif_neg hC]
        have hlen : ((a :: l').drop C).length < n := by
          subst hl
          simp only [List.length_drop, List.length_cons]
          omega
        rw [List.flatten_cons, ih ((a :: l').drop C).length hlen _ rfl]
        exact List.take_append_drop C (a :: l')
  exact fun l => main l.length l rfl

theorem splitBlocks_length {α : Type} (C : ℕ) (hC : C ≠ 0) :
    ∀ l : List α, (splitBlocks C l).length = numBlock l.length C := by
  have hC1 : 0 < C := Nat.pos_of_ne_zero hC
  have main : ∀ (n : ℕ) (l : List α), l.length = n →
      (splitBlocks C l).length = numBlock l.length C := by
    intro n
    induction n using Nat.strong_induction_on with
    | _ n ih =>
      intro l hl
      match l with
      | [] =>
        have h0 : (C - 1) / C = 0 := Nat.div_eq_of_lt (by omega)
        rw [splitBlocks, dif_neg hC]
        simp [numBlock, h0]
      | a :: l' =>
        rw [splitBlocks, dif_neg hC]
        have hlen : ((a :: l').drop C).length < n := by
          subst hl
          simp only [List.length_drop, List.length_cons]
          omega
        rw [List.length_cons, ih ((a :: l').drop C).length hlen _ rfl]
        simp only [numBlock, List.length_drop, List.length_cons]
        rcases Nat.lt_or_ge (l'.length + 1) (C + 1) with hsmall | hbig
        · have h0 : l'.length + 1 - C = 0 := by omega
          rw [h0]
          have h1 : (l'.length + 1 + C - 1) / C = 1 :=
            Nat.div_eq_of_lt_le (by omega) (by omega)
          simp only [Nat.zero_add]
          rw [h1]
          have h2 : (C - 1) / C = 0 := Nat.div_eq_of_lt (by omega)
          rw [h2]
        · have step : l'.length + 1 + C - 1 = (l'.length + 1 - C + C - 1) + C := by omega
          rw [step, Nat.add_div_right _ hC1]
  exact fun l => main l.length l rfl

theorem range_map_getD {α β : Type} (bs : List α) (d : α) (g : α → β) :
    (List.range bs.length).map (fun i => g (bs.getD i d)) = bs.map g := by
  induction bs with
  | nil => rfl
  | cons b bs ih =>
    rw [List.length_cons, List.range_succ_eq_map]
    simp only [List.map_cons, List.map_map, List.getD_cons_zero]
    refine congrArg (g b :: ·) ?_
    have hfun : ((fun i => g ((b :: bs).getD i d)) ∘ Nat.succ)
        = fun i => g (bs.getD i d) := by
      funext i
      simp [List.getD_cons_succ]
    rw [hfun, ih]

/-- C5: splitting a batch of size B into blocks of size C and
concatenating block predictions yields the same score sequence, in
the same order, as predicting the whole batch at once, whenever the
model predicts row-wise (`hrow` says that, after promotion of scalar
results, the scores of a block are the per-row scores `f`). -/
theorem spilt_predict_eq_whole {α β : Type} (pred : List α → PredOut β) (f : α → β)
    (C : ℕ) (hC : 0 < C) (xs : List α) (hB : xs ≠ [])
    (hrow : ∀ ys, (pred ys).toVec = ys.map f) :
    spiltPredict pred C xs = (pred xs).toVec ∧ spiltPredict pred C xs = xs.map f := by
  have hC0 : C ≠ 0 := Nat.pos_iff_ne_zero.mp hC
  have key : spiltPredict pred C xs = xs.map f := by
    unfold spiltPredict
    rw [← splitBlocks_length C hC0 xs]
    rw [range_map_getD (splitBlocks C xs) ([] : List α) (fun ch => (pred ch).toVec)]
    have hmap : (splitBlocks C xs).map (fun ch => (pred ch).toVec)
        = (splitBlocks C xs).map (fun ch => ch.map f) :=
      List.map_congr_left (fun ch _ => hrow ch)
    rw [hmap, ← List.map_flatten, splitBlocks_join C hC0 xs]
  exact ⟨by rw [key, hrow xs], key⟩

/-- Closed witness for `spilt_predict_eq_whole`: batch `[1,2,3] : List ℤ`,
chunk size 2, a model that scores each row by doubling it and returns a
scalar on singleton blocks. -/
theorem spilt_predict_eq_whole_witness :
    spiltPredict
        (fun ys : List ℤ => match ys with
          | [y] => PredOut.scalar (2 * y)
          | l => PredOut.vec (l.map (fun y => 2 * y))) 2 [1, 2, 3]
      = [2, 4, 6] := by
  have h := spilt_predict_eq_whole
    (fun ys : List ℤ => match ys with
      | [y] => PredOut.scalar (2 * y)
      | l => PredOut.vec (l.map (fun y => 2 * y)))
    (fun y => 2 * y) 2 (by decide) [1, 2, 3] (by decide)
    (fun ys => by
      match ys with
      | [] => rfl
      | [y] => rfl
      | a :: b :: l => rfl)
  rw [h.2]
  decide

/-! ## Full-ranking batch evaluation

`Trainer._full_sort_batch_eval` (trainer.py 420-439): after obtaining
model scores shaped `(users in batch) × (catalog size)` via
`scores.view(-1, self.tot_item_num)`, the code forces

    scores[:, 0] = -np.inf
    if history_index is not None:
        scores[history_index] = -np.inf

A score matrix is embedded as `Fin U → Fin N → WithBot ℚ`, with `⊥`
standing for `-np.inf`. -/

/-- `scores[:, 0] = -np.inf`: the reserved padding column. -/
def maskPadColumn {U N : ℕ} (M : Fin U → Fin N → WithBot ℚ) : Fin U → Fin N → WithBot ℚ :=
  fun u i => if i.val = 0 then ⊥ else M u i

/-- `scores[history_index] = -np.inf`: cells of already-interacted
(user, item) pairs. -/
def maskHistory {U N : ℕ} (hist : Fin U → Fin N → Bool)
    (M : Fin U → Fin N → WithBot ℚ) : Fin U → Fin N → WithBot ℚ :=
  fun u i => if hist u i then ⊥ else M u i

/-- `Trainer._full_sort_batch_eval` score post-processing:
`history_index` may be absent (`None`). -/
def fullSortBatchEval {U N : ℕ} (M : Fin U → Fin N → WithBot ℚ)
    (hist : Option (Fin U → Fin N → Bool)) : Fin U → Fin N → WithBot ℚ :=
  match hist with
  | none => maskPadColumn M
  | some h => maskHistory h (maskPadColumn M)

/-- C6: the processed matrix has `-inf` in the padding column and in
every history cell, and every other cell carries the model score
unchanged (in particular it is finite whenever the model score is). -/
theorem full_sort_batch_eval_spec {U N : ℕ} (M : Fin U → Fin N → WithBot ℚ)
    (h : Fin U → Fin N → Bool) (hN : 0 < N) :
    (∀ u : Fin U, fullSortBatchEval M (some h) u ⟨0, hN⟩ = ⊥) ∧
      (∀ (u : Fin U) (i : Fin N), h u i = true → fullSortBatchEval M (some h) u i = ⊥) ∧
      (∀ (u : Fin U) (i : Fin N), i.val ≠ 0 → h u i = false →
        fullSortBatchEval M (some h) u i = M u i) ∧
      (∀ (u : Fin U) (i : Fin N), i.val ≠ 0 → h u i = false → M u i ≠ ⊥ →
        fullSortBatchEval M (some h) u i ≠ ⊥) := by
  refine ⟨?_, ?_, ?_, ?_⟩
  · intro u
    simp [fullSortBatchEval, maskHistory, maskPadColumn]
  · intro u i hh
    simp [fullSortBatchEval, maskHistory, hh]
  · intro u i hi hh
    simp [fullSortBatchEval, maskHistory, maskPadColumn, hh, hi]
  · intro u i hi hh hfin
    simp [fullSortBatchEval, maskHistory, maskPadColumn, hh, hi]
    exact hfin

/-- Closed witness for `full_sort_batch_eval_spec`: a 2-user, 3-item
catalog with one history cell at user 1, item 2. -/
theorem full_sort_batch_eval_spec_witness :
    (∀ u : Fin 2,
      fullSortBatchEval (U := 2) (N := 3) (fun _ _ => ((1 : ℚ) : WithBot ℚ))
        (some (fun u i => u.val == 1 && i.val == 2)) u ⟨0, by decide⟩ = ⊥) ∧
      (∀ (u : Fin 2) (i : Fin 3), (u.val == 1 && i.val == 2) = true →
        fullSortBatchEval (U := 2) (N := 3) (fun _ _ => ((1 : ℚ) : WithBot ℚ))
          (some (fun u i => u.val == 1 && i.val == 2)) u i = ⊥) := by
  have h := full_sort_batch_eval_spec (U := 2) (N := 3)
    (fun _ _ => ((1 : ℚ) : WithBot ℚ))
    (fun u i => u.val == 1 && i.val == 2) (by decide)
  exact ⟨h.1, h.2.1⟩

/-! ## Extended-real valid scores

`self.best_valid_score = -np.inf if self.valid_metric_bigger else np.inf`
(trainer.py 102): the best score is either an IEEE infinity or a finite
float, embedded as a three-way sum. -/

inductive XVal where
  | negInf : XVal
  | fin : ℚ → XVal
  | posInf : XVal
deriving DecidableEq

/-! ## PFCN checkpointing

`PFCNTrainer._save_checkpoint` (trainer.py 1133-1154) and
`PFCNTrainer.resume_checkpoint` (trainer.py 1156-1186).  The trainer
state keeps the fields touched by these methods; `μ` abstracts a
serialized model `state_dict` blob (and `other_parameter`), `σ` an
optimizer `state_dict` blob.  The adversarial optimizers
`optimizer_filter` / `optimizer_dis` exist on the trainer only when
`filter_mode != 'none'` (they are created by the `PFCN_*Trainer`
subclasses under that guard), hence `Option σ` with `none` standing
for an absent attribute. -/

structure PFCNState (μ σ : Type) where
  modelName : String
  filter_mode : String
  start_epoch : ℤ
  cur_step : ℕ
  best_valid_score : XVal
  state_dict : μ
  other_parameter : μ
  optimizer : σ
  optimizer_filter : Option σ
  optimizer_dis : Option σ
deriving DecidableEq

/-- The dictionary written by `PFCNTrainer._save_checkpoint`
(trainer.py 1141-1151). -/
structure PFCNCheckpoint (μ σ : Type) where
  configModel : String
  epoch : ℤ
  cur_step : ℕ
  best_valid_score : XVal
  state_dict : μ
  other_parameter : μ
  optimizer : σ
  optimizer_filter : Option σ
  optimizer_dis : Option σ
deriving DecidableEq

/-- `PFCNTrainer._save_checkpoint`:
`'optimizer_filter': self.optimizer_filter.state_dict() if self.filter_mode != 'none' else None`
and likewise for `optimizer_dis`. -/
def pfcnSaveCheckpoint {μ σ : Type} (t : PFCNState μ σ) (epoch : ℤ) : PFCNCheckpoint μ σ :=
  { configModel := t.modelName
    epoch := epoch
    cur_step := t.cur_step
    best_valid_score := t.best_valid_score
    state_dict := t.state_dict
    other_parameter := t.other_parameter
    optimizer := t.optimizer
    optimizer_filter := if t.filter_mode ≠ "none" then t.optimizer_filter else none
    optimizer_dis := if t.filter_mode ≠ "none" then t.optimizer_dis else none }

/-- `PFCNTrainer.resume_checkpoint` (trainer.py 1163-1186): restores the
scalar fields and the model state, then

    if self.filter_mode != 'none':
        self.optimizer.load_state_dict(checkpoint['optimizer'])
    else:
        self.optimizer_filter.load_state_dict(checkpoint['optimizer_filter'])
        self.optimizer_dis.load_state_dict(checkpoint['optimizer_dis'])

In the `else` branch the trainer has no `optimizer_filter` /
`optimizer_dis` attribute and the checkpoint stored `None` for both,
so the load raises; this is modeled by `Except.error`. -/
def pfcnResumeCheckpoint {μ σ : Type} (t : PFCNState μ σ) (c : PFCNCheckpoint μ σ) :
    Except String (PFCNState μ σ) :=
  let t0 := { t with
    start_epoch := c.epoch + 1
    cur_step := c.cur_step
    best_valid_score := c.best_valid_score
    state_dict := c.state_dict
    other_parameter := c.other_parameter }
  if t0.filter_mode ≠ "none" then
    Except.ok { t0 with optimizer := c.optimizer }
  else
    match t0.optimizer_filter, c.optimizer_filter, t0.optimizer_dis, c.optimizer_dis with
    | some _, some f, some _, some d =>
      Except.ok { t0 with optimizer_filter := some f, optimizer_dis := some d }
    | _, _, _, _ => Except.error "optimizer state load failed"

/-- A concrete adversarial session (filter_mode `cm`) whose state is
saved at epoch 7 with non-improvement counter 2 and best score 0.42. -/
def pfcnSessionAtSave : PFCNState ℚ ℚ :=
  { modelName := "PFCN_MLP"
    filter_mode := "cm"
    start_epoch := 0
    cur_step := 2
    best_valid_score := XVal.fin (42 / 100)
    state_dict := 100
    other_parameter := 200
    optimizer := 1
    optimizer_filter := some 2
    optimizer_dis := some 3 }

/-- The same trainer later in the run, when `resume_checkpoint` is
invoked: every optimizer role has drifted since the save. -/
def pfcnSessionAtResume : PFCNState ℚ ℚ :=
  { pfcnSessionAtSave with
    cur_step := 0
    best_valid_score := XVal.negInf
    state_dict := 111
    optimizer := 10
    optimizer_filter := some 20
    optimizer_dis := some 30 }

/-- A non-adversarial session (`filter_mode = 'none'`), which owns only
the base optimizer. -/
def pfcnSessionNone : PFCNState ℚ ℚ :=
  { pfcnSessionAtSave with
    filter_mode := "none"
    optimizer_filter := none
    optimizer_dis := none }

/-- C2 (code bug): resuming the checkpoint written at epoch 7 restores
`start_epoch = 8`, `cur_step = 2`, `best_valid_score = 0.42` and the
base optimizer, but leaves `optimizer_filter` and `optimizer_dis` at
their stale in-memory values (20 and 30) instead of the saved 2 and 3 —
the branch in `resume_checkpoint` is inverted relative to
`_save_checkpoint`.  For `filter_mode = 'none'` the inverted branch
dereferences attributes that were never created and a checkpoint field
saved as `None`, so resuming fails outright. -/
theorem pfcn_resume_drops_adversarial_optimizers :
    pfcnResumeCheckpoint pfcnSessionAtResume (pfcnSaveCheckpoint pfcnSessionAtSave 7)
        = Except.ok { pfcnSessionAtSave with
            start_epoch := 8, optimizer_filter := some 20, optimizer_dis := some 30,
            state_dict := 100 } ∧
      (pfcnSaveCheckpoint pfcnSessionAtSave 7).optimizer_filter = some 2 ∧
      (pfcnSaveCheckpoint pfcnSessionAtSave 7).optimizer_dis = some 3 ∧
      (some (20 : ℚ) ≠ some (2 : ℚ)) ∧ (some (30 : ℚ) ≠ some (3 : ℚ)) ∧
      pfcnResumeCheckpoint pfcnSessionNone (pfcnSaveCheckpoint pfcnSessionNone 7)
        = Except.error "optimizer state load failed" := by
  refine ⟨?_, rfl, rfl, by decide, by decide, ?_⟩
  · rfl
  · rfl

/-! ## Adversarial training epochs: one mask, two passes

`FairGoTrainer._train_epoch` (trainer.py 687-704) and
`PFCNTrainer._train_epoch` (trainer.py 875-898) sample one mask,
derive `sst_list`, and pass the same `sst_list` to the filter-loss
pass (`self.model.calculate_loss`, only when
`epoch_idx % train_epoch_interval == 0`) and to the
discriminator-loss pass (`self.model.calculate_dis_loss`, every
epoch). -/

inductive LossFn where
  | calcLoss : LossFn
  | calcDisLoss : LossFn
deriving DecidableEq

/-- The observable shape of one `_train_epoch` call: which loss
functions were invoked via `_train_epoch_with_mask`, with which
`sst_list` argument, plus how many random draws the mask sampling
consumed. -/
structure EpochPlan where
  passes : List (LossFn × Option (List String))
  drawsUsed : ℕ
deriving DecidableEq

/-- `FairGoTrainer._train_epoch`: sample a mask once, then filter pass
(on interval epochs) and discriminator pass share its `sst_list`.
Returns `none` if the rejection sampling did not accept within
`fuel`. -/
def fairGoTrainEpoch (attrs : List String) (interval : ℕ) (draws : ℕ → List ℕ)
    (fuel : ℕ) (epochIdx : ℕ) : Option EpochPlan :=
  match sampleMask draws fuel 0 with
  | none => none
  | some (mask, c) =>
    some { passes :=
             (if epochIdx % interval = 0
               then [(LossFn.calcLoss, some (sstListOf attrs mask))] else [])
               ++ [(LossFn.calcDisLoss, some (sstListOf attrs mask))],
           drawsUsed := c }

/-- `PFCNTrainer._train_epoch`: identical masked structure when
`filter_mode != 'none'`; otherwise a single unmasked
`calculate_loss` pass with `sst_list = None` and no sampling. -/
def pfcnTrainEpoch (filterMode : String) (attrs : List String) (interval : ℕ)
    (draws : ℕ → List ℕ) (fuel : ℕ) (epochIdx : ℕ) : Option EpochPlan :=
  if filterMode ≠ "none" then
    match sampleMask draws fuel 0 with
    | none => none
    | some (mask, c) =>
      some { passes :=
               (if epochIdx % interval = 0
                 then [(LossFn.calcLoss, some (sstListOf attrs mask))] else [])
                 ++ [(LossFn.calcDisLoss, some (sstListOf attrs mask))],
             drawsUsed := c }
  else
    some { passes := [(LossFn.calcLoss, none)], drawsUsed := 0 }

/-- C9: in both adversarial trainers one epoch samples exactly one
mask (`drawsUsed` is the draw count of the single rejection loop) and
passes the identical revealed subset to the filter pass (present
exactly on interval epochs) and to the discriminator pass; in
particular every pass of the epoch carries the same `sst_list`. -/
theorem one_mask_shared_by_both_passes (attrs : List String) (interval : ℕ)
    (draws : ℕ → List ℕ) (fuel epochIdx : ℕ) (filterMode : String)
    (hmode : filterMode ≠ "none") (mask : List ℕ) (c : ℕ)
    (hs : sampleMask draws fuel 0 = some (mask, c)) :
    fairGoTrainEpoch attrs interval draws fuel epochIdx
        = some { passes :=
                   (if epochIdx % interval = 0
                     then [(LossFn.calcLoss, some (sstListOf attrs mask))] else [])
                     ++ [(LossFn.calcDisLoss, some (sstListOf attrs mask))],
                 drawsUsed := c } ∧
      pfcnTrainEpoch filterMode attrs interval draws fuel epochIdx
        = fairGoTrainEpoch attrs interval draws fuel epochIdx ∧
      (∀ p, fairGoTrainEpoch attrs interval draws fuel epochIdx = some p →
        ∀ q ∈ p.passes, q.2 = some (sstListOf attrs mask)) := by
  have hfair : fairGoTrainEpoch attrs interval draws fuel epochIdx
      = some { passes :=
                 (if epochIdx % interval = 0
                   then [(LossFn.calcLoss, some (sstListOf attrs mask))] else [])
                   ++ [(LossFn.calcDisLoss, some (sstListOf attrs mask))],
               drawsUsed := c } := by
    unfold fairGoTrainEpoch
    rw [hs]
  refine ⟨hfair, ?_, ?_⟩
  · unfold pfcnTrainEpoch
    rw [if_pos hmode, hs, hfair]
  · intro p hp q hq
    rw [hfair] at hp
    injection hp with hp
    subst hp
    simp only [] at hq
    rcases List.mem_append.mp hq with hq1 | hq2
    · by_cases hi : epochIdx % interval = 0
      · rw [if_pos hi] at hq1
        simp at hq1
        rw [hq1]
      · rw [if_neg hi] at hq1
        simp at hq1
    · simp at hq2
      rw [hq2]

/-- Closed witness for `one_mask_shared_by_both_passes`. -/
theorem one_mask_shared_by_both_passes_witness :
    fairGoTrainEpoch ["gender", "age"] 5 (fun _ => [1, 0]) 3 10
        = some { passes :=
                   [(LossFn.calcLoss, some (sstListOf ["gender", "age"] [1, 0])),
                    (LossFn.calcDisLoss, some (sstListOf ["gender", "age"] [1, 0]))],
                 drawsUsed := 1 } := by
  have h := one_mask_shared_by_both_passes ["gender", "age"] 5 (fun _ => [1, 0]) 3 10
    "cm" (by decide) [1, 0] 1 (by decide)
  rw [h.1]
  decide

/-! ## The epoch loop of `Trainer.fit`

`Trainer.fit` (trainer.py 332-418), `Trainer._train_epoch`
(trainer.py 155-204) and `Trainer._check_nan` (trainer.py 286-288).
A batch's scalar loss value is embedded as `Option ℚ`, with `none`
standing for NaN (`torch.isnan`).  `_train_epoch` accumulates the
running total, raises `ValueError('Training loss is nan')` on a NaN
loss after accumulating but before `loss.backward()` and
`self.optimizer.step()`, and counts an optimizer step per surviving
batch. -/

/-- One training epoch over a list of batch losses: the `Except` part
is the total loss or the NaN error, the `ℕ` part counts the
`optimizer.step()` calls performed. -/
def accumulateLoss (acc : Option ℚ) (l : ℚ) : ℚ :=
  match acc with
  | none => l
  | some t => t + l

def trainEpochScalar : List (Option ℚ) → Option ℚ → ℕ → Except String (Option ℚ) × ℕ
  | [], acc, steps => (Except.ok acc, steps)
  | none :: _, _, steps => (Except.error "Training loss is nan", steps)
  | some l :: rest, acc, steps =>
    trainEpochScalar rest (some (accumulateLoss acc l)) (steps + 1)

/-- The configuration fields of `Trainer` consumed by `fit`. -/
structure FitConfig where
  epochs : ℕ
  evalStep : ℤ
  stoppingStep : ℕ
  bigger : Bool
  saved : Bool

/-- Boolean strict order on extended valid scores. -/
def XVal.lt : XVal → XVal → Bool
  | XVal.negInf, XVal.negInf => false
  | XVal.negInf, _ => true
  | XVal.fin _, XVal.negInf => false
  | XVal.fin a, XVal.fin b => decide (a < b)
  | XVal.fin _, XVal.posInf => true
  | XVal.posInf, _ => false

/-- Modelled from the spec: `early_stopping` lives in `recbole.utils`,
outside the trainer source; §4.4 specifies it as a pure function of
(candidate, currentBest, currentStep, maxSteps, direction) returning
(newBest, newStep, stopFlag, improvedFlag), where improvement resets
the step to 0 and otherwise `newStep = step + 1` and
`stopFlag = (newStep ≥ maxNonImprovingSteps)`. -/
def earlyStopping (value : ℚ) (best : XVal) (curStep maxStep : ℕ) (bigger : Bool) :
    XVal × ℕ × Bool × Bool :=
  if (if bigger then XVal.lt best (XVal.fin value) else XVal.lt (XVal.fin value) best) then
    (XVal.fin value, 0, false, true)
  else
    (best, curStep + 1, decide (curStep + 1 ≥ maxStep), false)

/-- The mutable trainer state threaded through `fit`, together with a
ledger of the written checkpoints (epoch arguments of
`_save_checkpoint`, in order) and a count of the validation/early-
stopping invocations. -/
structure FitState (R : Type) where
  bestScore : XVal
  bestResult : Option R
  curStep : ℕ
  checkpoints : List ℤ
  evalCount : ℕ
deriving DecidableEq

/-- `Trainer.__init__` (trainer.py 100-104): fresh counters,
`best_valid_score = -np.inf if self.valid_metric_bigger else np.inf`,
`best_valid_result = None`. -/
def fitInit (R : Type) (cfg : FitConfig) : FitState R :=
  { bestScore := if cfg.bigger then XVal.negInf else XVal.posInf
    bestResult := none
    curStep := 0
    checkpoints := []
    evalCount := 0 }

/-- The body of one iteration of the epoch loop of `Trainer.fit`
(trainer.py 356-411): run `_train_epoch`, then either the no-valid
unconditional checkpoint branch, the validation/early-stopping branch
at eval-step boundaries, or nothing.  Returns (new state, propagated
exception, `stop_flag` break request). -/
def epochStep (R : Type) (cfg : FitConfig) (losses : ℕ → List (Option ℚ))
    (validEpoch : Option (ℕ → ℚ × R)) (e : ℕ) (st : FitState R) :
    FitState R × Option String × Bool :=
  match (trainEpochScalar (losses e) none 0).1 with
  | Except.error msg => (st, some msg, false)
  | Except.ok _ =>
    if cfg.evalStep ≤ 0 ∨ validEpoch.isNone then
      ({ st with checkpoints :=
          if cfg.saved then st.checkpoints ++ [(e : ℤ)] else st.checkpoints },
        none, false)
    else
      match validEpoch with
      | none => (st, none, false)
      | some ve =>
        if (e + 1) % cfg.evalStep.toNat = 0 then
          let score := (ve e).1
          let result := (ve e).2
          let es := earlyStopping score st.bestScore st.curStep cfg.stoppingStep cfg.bigger
          let st1 : FitState R :=
            { st with bestScore := es.1, curStep := es.2.1, evalCount := st.evalCount + 1 }
          let st2 : FitState R :=
            if es.2.2.2 then
              { st1 with
                checkpoints :=
                  if cfg.saved then st1.checkpoints ++ [(e : ℤ)] else st1.checkpoints
                bestResult := some result }
            else st1
          (st2, none, es.2.2.1)
        else (st, none, false)

/-- The epoch loop of `Trainer.fit` (trainer.py 356-411), from epoch
`e` on.  `losses` gives each epoch's batch losses; `validEpoch` is
`None` when no `valid_data` is supplied, otherwise an oracle for
`self._valid_epoch` returning (valid_score, valid_result).  The
second component of the result is the propagated exception, if any;
file writes performed before an exception (the checkpoint ledger)
survive in the returned state. -/
def fitFrom (R : Type) (cfg : FitConfig) (losses : ℕ → List (Option ℚ))
    (validEpoch : Option (ℕ → ℚ × R)) (e : ℕ) (st : FitState R) :
    FitState R × Option String :=
  if cfg.epochs ≤ e then (st, none)
  else
    if (epochStep R cfg losses validEpoch e st).2.1.isSome then
      ((epochStep R cfg losses validEpoch e st).1, (epochStep R cfg losses validEpoch e st).2.1)
    else if (epochStep R cfg losses validEpoch e st).2.2 then
      ((epochStep R cfg losses validEpoch e st).1, none)
    else fitFrom R cfg losses validEpoch (e + 1) (epochStep R cfg losses validEpoch e st).1
termination_by cfg.epochs - e
decreasing_by
  omega

/-- `Trainer.fit` (trainer.py 332-418): the initial
`if saved and self.start_epoch >= self.epochs: self._save_checkpoint(-1)`
followed by the epoch loop; returns the final state (whose
`bestScore`/`bestResult` are the method's return value) and the
propagated exception, if any. -/
def fitModel (R : Type) (cfg : FitConfig) (startEpoch : ℕ) (losses : ℕ → List (Option ℚ))
    (validEpoch : Option (ℕ → ℚ × R)) : FitState R × Option String :=
  let st0 := fitInit R cfg
  let st1 := if cfg.saved ∧ cfg.epochs ≤ startEpoch
    then { st0 with checkpoints := [(-1 : ℤ)] } else st0
  fitFrom R cfg losses validEpoch startEpoch st1

theorem trainEpochScalar_ok (bl : List (Option ℚ)) (hbl : Option.none ∉ bl) :
    ∀ (acc : Option ℚ) (s : ℕ), ∃ tot, trainEpochScalar bl acc s = (Except.ok tot, s + bl.length) := by
  induction bl with
  | nil => intro acc s; exact ⟨acc, rfl⟩
  | cons b rest ih =>
    intro acc s
    match b with
    | none => exact absurd (List.mem_cons_self none rest) hbl
    | some l =>
      have hrest : Option.none ∉ rest := fun hmem => hbl (List.mem_cons_of_mem _ hmem)
      rcases ih hrest (some (accumulateLoss acc l)) (s + 1) with ⟨tot, htot⟩
      refine ⟨tot, ?_⟩
      have hstep : trainEpochScalar (some l :: rest) acc s
          = trainEpochScalar rest (some (accumulateLoss acc l)) (s + 1) := rfl
      have harith : s + 1 + rest.length = s + (rest.length + 1) := by omega
      rw [hstep, htot]
      simp only [List.length_cons]
      rw [harith]

theorem trainEpochScalar_nan (pre post : List (Option ℚ)) (hpre : Option.none ∉ pre) :
    ∀ (acc : Option ℚ) (s : ℕ),
      trainEpochScalar (pre ++ Option.none :: post) acc s
        = (Except.error "Training loss is nan", s + pre.length) := by
  induction pre with
  | nil => intro acc s; simp [trainEpochScalar]
  | cons b rest ih =>
    intro acc s
    match b with
    | none => exact absurd (List.mem_cons_self none rest) hpre
    | some l =>
      have hrest : Option.none ∉ rest := fun hmem => hpre (List.mem_cons_of_mem _ hmem)
      have hstep : trainEpochScalar ((some l :: rest) ++ Option.none :: post) acc s
          = trainEpochScalar (rest ++ Option.none :: post)
              (some (accumulateLoss acc l)) (s + 1) := rfl
      have harith : s + 1 + rest.length = s + (rest.length + 1) := by omega
      rw [hstep, ih hrest]
      simp only [List.length_cons]
      rw [harith]

/-- C3: a NaN loss at batch index `pre.length` of epoch `e` makes
`_train_epoch` raise `ValueError('Training loss is nan')` having
performed exactly `pre.length` optimizer steps (none for the NaN
batch itself), the exception propagates out of the epoch loop with
the state unchanged — so no checkpoint is written for epoch `e` and
no later epoch runs — and a `fit` started at epoch `e` ends with the
error and an empty checkpoint ledger. -/
theorem nan_loss_aborts_fit (R : Type) (cfg : FitConfig) (losses : ℕ → List (Option ℚ))
    (validEpoch : Option (ℕ → ℚ × R)) (e : ℕ) (st : FitState R)
    (pre post : List (Option ℚ)) (he : e < cfg.epochs)
    (hb : losses e = pre ++ Option.none :: post) (hpre : Option.none ∉ pre) :
    trainEpochScalar (losses e) none 0
        = (Except.error "Training loss is nan", pre.length) ∧
      fitFrom R cfg losses validEpoch e st = (st, some "Training loss is nan") ∧
      fitModel R cfg e losses validEpoch
        = (fitInit R cfg, some "Training loss is nan") := by
  have htr : trainEpochScalar (losses e) none 0
      = (Except.error "Training loss is nan", pre.length) := by
    rw [hb, trainEpochScalar_nan pre post hpre none 0]
    simp
  have hstep : ∀ s : FitState R, epochStep R cfg losses validEpoch e s
      = (s, some "Training loss is nan", false) := by
    intro s
    unfold epochStep
    rw [htr]
  have hloop : ∀ s : FitState R, fitFrom R cfg losses validEpoch e s
      = (s, some "Training loss is nan") := by
    intro s
    rw [fitFrom, if_neg (by omega : ¬cfg.epochs ≤ e), hstep]
    simp
  refine ⟨htr, hloop st, ?_⟩
  have hne : ¬(cfg.saved = true ∧ cfg.epochs ≤ e) := by
    intro hcon
    omega
  simp only [fitModel, hne, if_false]
  exact hloop (fitInit R cfg)

/-- Closed witness for `nan_loss_aborts_fit`: NaN at batch 1 of
epoch 0 in a 2-epoch run. -/
theorem nan_loss_aborts_fit_witness :
    fitModel Unit { epochs := 2, evalStep := 1, stoppingStep := 2, bigger := true, saved := true }
        0 (fun _ => [some 1, Option.none, some 2]) none
      = (fitInit Unit { epochs := 2, evalStep := 1, stoppingStep := 2, bigger := true, saved := true },
         some "Training loss is nan") :=
  (nan_loss_aborts_fit Unit
    { epochs := 2, evalStep := 1, stoppingStep := 2, bigger := true, saved := true }
    (fun _ => [some 1, Option.none, some 2]) none 0
    (fitInit Unit { epochs := 2, evalStep := 1, stoppingStep := 2, bigger := true, saved := true })
    [some 1] [some 2] (by decide) rfl (by decide)).2.2

theorem epochStep_no_valid (R : Type) (cfg : FitConfig) (losses : ℕ → List (Option ℚ))
    (validEpoch : Option (ℕ → ℚ × R)) (e : ℕ) (st : FitState R)
    (hnv : validEpoch = none ∨ cfg.evalStep ≤ 0) (hl : Option.none ∉ losses e) :
    epochStep R cfg losses validEpoch e st
      = ({ st with checkpoints :=
            if cfg.saved then st.checkpoints ++ [(e : ℤ)] else st.checkpoints },
          none, false) := by
  rcases trainEpochScalar_ok (losses e) hl none 0 with ⟨tot, htot⟩
  have hcond : (cfg.evalStep ≤ 0 ∨ validEpoch.isNone) := by
    rcases hnv with h | h
    · right; rw [h]; rfl
    · left; exact h
  unfold epochStep
  rw [htot]
  simp only [if_pos hcond]

theorem fitFrom_no_valid (R : Type) (cfg : FitConfig) (losses : ℕ → List (Option ℚ))
    (validEpoch : Option (ℕ → ℚ × R))
    (hnv : validEpoch = none ∨ cfg.evalStep ≤ 0) (hl : ∀ e, Option.none ∉ losses e) :
    ∀ (n e : ℕ) (st : FitState R), cfg.epochs - e = n →
      fitFrom R cfg losses validEpoch e st
        = ({ st with checkpoints := st.checkpoints ++
              (if cfg.saved
                then (List.range' e (cfg.epochs - e)).map (fun j => (j : ℤ)) else []) },
            none) := by
  intro n
  induction n with
  | zero =>
    intro e st hn
    have he : cfg.epochs ≤ e := by omega
    rw [fitFrom, if_pos he, hn]
    simp
  | succ n ih =>
    intro e st hn
    have he : ¬cfg.epochs ≤ e := by omega
    have hstep := epochStep_no_valid R cfg losses validEpoch e st hnv (hl e)
    rw [fitFrom, if_neg he, hstep]
    simp only [Option.isSome_none, Bool.false_eq_true, if_false]
    rw [ih (e + 1) _ (by omega)]
    have hrange : cfg.epochs - e = n + 1 := hn
    have hr : List.range' e (cfg.epochs - e) = e :: List.range' (e + 1) (cfg.epochs - (e + 1)) := by
      rw [hrange]
      have : cfg.epochs - (e + 1) = n := by omega
      rw [this]
      exact List.range'_succ e n 1
    by_cases hsv : cfg.saved
    · simp [hsv, hr]
    · simp [hsv]

/-- C10: with `valid_data = None` (or a non-positive `eval_step`) and
no NaN losses, `fit` runs all epochs without ever invoking the
evaluator or early stopping (`evalCount = 0`), checkpoints every epoch
when saving is enabled (plus the epoch `-1` checkpoint when the epoch
budget is already exhausted), and returns the untouched initial pair:
`best_valid_score = -inf` when `valid_metric_bigger` else `+inf`, and
`best_valid_result = None` — which is not the `(-1, None)` promised by
the docstring, since the initial score is an infinity, never the
finite value `-1`. -/
theorem fit_no_valid_returns_initial (R : Type) (cfg : FitConfig) (startEpoch : ℕ)
    (losses : ℕ → List (Option ℚ)) (validEpoch : Option (ℕ → ℚ × R))
    (hnv : validEpoch = none ∨ cfg.evalStep ≤ 0) (hl : ∀ e, Option.none ∉ losses e) :
    fitModel R cfg startEpoch losses validEpoch
        = ({ bestScore := if cfg.bigger then XVal.negInf else XVal.posInf
             bestResult := none
             curStep := 0
             checkpoints :=
               (if cfg.saved ∧ cfg.epochs ≤ startEpoch then [(-1 : ℤ)] else [])
                 ++ (if cfg.saved
                      then (List.range' startEpoch (cfg.epochs - startEpoch)).map
                        (fun j => (j : ℤ))
                      else [])
             evalCount := 0 }, none) ∧
      (if cfg.bigger then XVal.negInf else XVal.posInf) ≠ XVal.fin (-1) := by
  constructor
  · unfold fitModel
    rw [fitFrom_no_valid R cfg losses validEpoch hnv hl (cfg.epochs - startEpoch) startEpoch _ rfl]
    by_cases hover : cfg.saved = true ∧ cfg.epochs ≤ startEpoch
    · simp only [if_pos hover, fitInit]
    · simp only [if_neg hover, fitInit]
  · by_cases hbig : cfg.bigger
    · simp [hbig]
    · simp [hbig]

/-- Closed witness for `fit_no_valid_returns_initial`: a 2-epoch run
with no validation data and saving enabled, started at epoch 0. -/
theorem fit_no_valid_returns_initial_witness :
    fitModel Unit { epochs := 2, evalStep := 1, stoppingStep := 2, bigger := true, saved := true }
        0 (fun _ => [some 1, some 2]) none
      = ({ bestScore := XVal.negInf
           bestResult := none
           curStep := 0
           checkpoints := [(0 : ℤ), (1 : ℤ)]
           evalCount := 0 }, none) := by
  have h := (fit_no_valid_returns_initial Unit
    { epochs := 2, evalStep := 1, stoppingStep := 2, bigger := true, saved := true }
    0 (fun _ => [some 1, some 2]) none (Or.inl rfl)
    (fun e => by
      show Option.none ∉ [some 1, some 2]
      decide)).1
  rw [h]
  decide

/-! ## Combinatorial subset evaluation

`PFCNTrainer.evaluate` (trainer.py 1047-1106): when
`filter_mode != 'none'`,

    for i in range(1, self.sst_num+1):
        sst_lists = [list(_) for _ in itertools.combinations(self.config['sst_attr_list'], i)]
        for sst_list in sst_lists:
            ... run the full evaluation pass with sst_list revealed ...
            final_result['{}-{}'.format(self.config['filter_mode'], sst_list)] = result

enumerating all non-empty subsets by increasing size, each subset in
itertools' declaration (lexicographic-index) order. -/

/-- `itertools.combinations(l, k)` with each tuple converted to a
list: all length-`k` sublists of `l`, in order. -/
def combinations {α : Type} : ℕ → List α → List (List α)
  | 0, _ => [[]]
  | _ + 1, [] => []
  | k + 1, x :: xs => ((combinations k xs).map (fun l => x :: l)) ++ combinations (k + 1) xs

theorem combinations_length {α : Type} :
    ∀ (k : ℕ) (l : List α), (combinations k l).length = l.length.choose k := by
  intro k
  induction k with
  | zero => intro l; simp [combinations]
  | succ k ihk =>
    intro l
    induction l with
    | nil => simp [combinations]
    | cons x xs ihl =>
      rw [combinations, List.length_append, List.length_map, ihk xs, ihl,
        List.length_cons, Nat.choose_succ_succ]

theorem combinations_mem_length {α : Type} :
    ∀ (k : ℕ) (l t : List α), t ∈ combinations k l → t.length = k := by
  intro k
  induction k with
  | zero =>
    intro l t ht
    simp [combinations] at ht
    rw [ht]
    rfl
  | succ k ihk =>
    intro l
    induction l with
    | nil => intro t ht; simp [combinations] at ht
    | cons x xs ihl =>
      intro t ht
      rw [combinations] at ht
      rcases List.mem_append.mp ht with h1 | h2
      · rcases List.mem_map.mp h1 with ⟨t0, ht0, rfl⟩
        rw [List.length_cons, ihk xs t0 ht0]
      · exact ihl t h2

theorem combinations_sublist {α : Type} :
    ∀ (k : ℕ) (l t : List α), t ∈ combinations k l → t.Sublist l := by
  intro k
  induction k with
  | zero =>
    intro l t ht
    simp [combinations] at ht
    rw [ht]
    exact List.nil_sublist l
  | succ k ihk =>
    intro l
    induction l with
    | nil => intro t ht; simp [combinations] at ht
    | cons x xs ihl =>
      intro t ht
      rw [combinations] at ht
      rcases List.mem_append.mp ht with h1 | h2
      · rcases List.mem_map.mp h1 with ⟨t0, ht0, rfl⟩
        exact List.Sublist.cons₂ x (ihk xs t0 ht0)
      · exact List.Sublist.cons x (ihl t h2)

theorem combinations_complete {α : Type} {t l : List α} (h : t.Sublist l) :
    t ∈ combinations t.length l := by
  induction h with
  | slnil => simp [combinations]
  | cons a h ih =>
    rename_i l₁ l₂
    cases l₁ with
    | nil => simp [combinations]
    | cons b t' =>
      rw [List.length_cons, combinations]
      refine List.mem_append_right _ ?_
      simpa using ih
  | cons₂ a h ih =>
    rename_i l₁ l₂
    rw [List.length_cons, combinations]
    exact List.mem_append_left _ (List.mem_map.mpr ⟨l₁, ih, rfl⟩)

theorem combinations_nodup {α : Type} :
    ∀ (k : ℕ) (l : List α), l.Nodup → (combinations k l).Nodup := by
  intro k
  induction k with
  | zero => intro l _; simp [combinations]
  | succ k ihk =>
    intro l
    induction l with
    | nil => intro _; simp [combinations]
    | cons x xs ihl =>
      intro hnd
      have hx : x ∉ xs := (List.nodup_cons.mp hnd).1
      have hxs : xs.Nodup := (List.nodup_cons.mp hnd).2
      rw [combinations]
      refine List.Nodup.append ?_ (ihl hxs) ?_
      · exact (ihk xs hxs).map (fun a b hab => List.cons_injective hab)
      · intro t ht1 ht2
        rcases List.mem_map.mp ht1 with ⟨t0, _, rfl⟩
        have : x ∈ xs := (combinations_sublist (k + 1) xs (x :: t0) ht2).subset
          (List.mem_cons_self x t0)
        exact hx this

/-- The iteration order of `PFCNTrainer.evaluate`: subsets of size 1
first, then size 2, ..., up to size N, each size in itertools order. -/
def allSubsets {α : Type} (attrs : List α) : List (List α) :=
  (List.range attrs.length).flatMap (fun i => combinations (i + 1) attrs)

theorem list_sum_map_range {M : Type} [AddCommMonoid M] (f : ℕ → M) :
    ∀ n : ℕ, ((List.range n).map f).sum = ∑ i ∈ Finset.range n, f i := by
  intro n
  induction n with
  | zero => simp
  | succ n ih => rw [List.range_succ, List.map_append, List.sum_append,
      Finset.sum_range_succ, ih]; simp

theorem allSubsets_length {α : Type} (attrs : List α) :
    (allSubsets attrs).length = 2 ^ attrs.length - 1 := by
  unfold allSubsets
  rw [List.length_flatMap]
  simp only [Function.comp_def]
  rw [List.map_congr_left (fun i _ => combinations_length (i + 1) attrs)]
  rw [list_sum_map_range]
  have h2 := Nat.sum_range_choose attrs.length
  rw [Finset.sum_range_succ'] at h2
  simp only [Nat.choose_zero_right] at h2
  omega

theorem allSubsets_nodup {α : Type} (attrs : List α) (hnd : attrs.Nodup) :
    (allSubsets attrs).Nodup := by
  unfold allSubsets
  rw [List.nodup_flatMap]
  constructor
  · intro i _
    exact combinations_nodup (i + 1) attrs hnd
  · refine List.Pairwise.imp ?_ (List.nodup_range attrs.length)
    intro i j hij
    intro t hti htj
    have h1 := combinations_mem_length (i + 1) attrs t hti
    have h2 := combinations_mem_length (j + 1) attrs t htj
    omega

theorem allSubsets_sound {α : Type} (attrs : List α) (t : List α)
    (ht : t ∈ allSubsets attrs) : t.Sublist attrs ∧ t ≠ [] := by
  unfold allSubsets at ht
  rcases List.mem_flatMap.mp ht with ⟨i, _, hmem⟩
  refine ⟨combinations_sublist (i + 1) attrs t hmem, ?_⟩
  have := combinations_mem_length (i + 1) attrs t hmem
  intro hnil
  rw [hnil] at this
  simp at this

theorem allSubsets_complete {α : Type} (attrs : List α) (t : List α)
    (hsub : t.Sublist attrs) (hne : t ≠ []) : t ∈ allSubsets attrs := by
  unfold allSubsets
  refine List.mem_flatMap.mpr ⟨t.length - 1, ?_, ?_⟩
  · refine List.mem_range.mpr ?_
    have h1 : t.length ≤ attrs.length := hsub.length_le
    have h2 : 0 < t.length := List.length_pos.mpr hne
    omega
  · have h2 : 0 < t.length := List.length_pos.mpr hne
    have : t.length - 1 + 1 = t.length := by omega
    rw [this]
    exact combinations_complete hsub

/-! ## Result-dictionary keys

`'{}-{}'.format(self.config['filter_mode'], sst_list)` (trainer.py
1092) renders the subset as Python renders a list of strings:
`[{quote}gender{quote}, {quote}age{quote}]` with single-quote
characters (the rendering Python uses for strings that contain no
quote character themselves).  Keys are embedded as `List Char`. -/

/-- The single-quote character (code point 39). -/
def quoteChar : Char := Char.ofNat 39

/-- Python `repr` of one quote-free string. -/
def pyQuote (s : String) : List Char :=
  quoteChar :: (s.data ++ [quoteChar])

/-- The comma-space-joined reprs of the list elements (the inside of
Python's `str` of a list of strings). -/
def pyListRepr : List String → List Char
  | [] => []
  | [s] => pyQuote s
  | s :: t :: rest => pyQuote s ++ ',' :: ' ' :: pyListRepr (t :: rest)

/-- The separator-prefixed tail of `pyListRepr`. -/
def pySepTail : List String → List Char
  | [] => []
  | t :: rest => ',' :: ' ' :: pyListRepr (t :: rest)

theorem pyListRepr_cons (s : String) (r : List String) :
    pyListRepr (s :: r) = quoteChar :: (s.data ++ quoteChar :: pySepTail r) := by
  cases r with
  | nil => simp [pyListRepr, pySepTail, pyQuote]
  | cons t rest => simp [pyListRepr, pySepTail, pyQuote]

theorem append_quoteChar_cancel :
    ∀ (s t a b : List Char), quoteChar ∉ s → quoteChar ∉ t →
      s ++ quoteChar :: a = t ++ quoteChar :: b → s = t ∧ a = b := by
  intro s
  induction s with
  | nil =>
    intro t a b _ hqt h
    cases t with
    | nil =>
      simp at h
      exact ⟨rfl, h⟩
    | cons c t' =>
      simp at h
      exact absurd (h.1 ▸ List.mem_cons_self c t') (by simpa [h.1] using hqt)
  | cons c s' ih =>
    intro t a b hqs hqt h
    cases t with
    | nil =>
      simp at h
      exact absurd (h.1 ▸ List.mem_cons_self c s') (by simpa [h.1] using hqs)
    | cons d t' =>
      simp only [List.cons_append, List.cons.injEq] at h
      rcases h with ⟨hcd, h'⟩
      have hqs' : quoteChar ∉ s' := fun hmem => hqs (List.mem_cons_of_mem _ hmem)
      have hqt' : quoteChar ∉ t' := fun hmem => hqt (List.mem_cons_of_mem _ hmem)
      rcases ih t' a b hqs' hqt' h' with ⟨h1, h2⟩
      exact ⟨by rw [hcd, h1], h2⟩

theorem pyListRepr_inj :
    ∀ (l₁ l₂ : List String),
      (∀ x ∈ l₁, quoteChar ∉ x.data) → (∀ x ∈ l₂, quoteChar ∉ x.data) →
      pyListRepr l₁ = pyListRepr l₂ → l₁ = l₂ := by
  intro l₁
  induction l₁ with
  | nil =>
    intro l₂ _ _ h
    cases l₂ with
    | nil => rfl
    | cons t u =>
      rw [pyListRepr_cons] at h
      exact absurd h.symm (List.cons_ne_nil _ _)
  | cons s r ih =>
    intro l₂ h1 h2 h
    cases l₂ with
    | nil =>
      rw [pyListRepr_cons] at h
      exact absurd h (List.cons_ne_nil _ _)
    | cons t u =>
      rw [pyListRepr_cons, pyListRepr_cons] at h
      have hdata := List.cons_injective h
      rcases append_quoteChar_cancel s.data t.data (pySepTail r) (pySepTail u)
        (h1 s (List.mem_cons_self s r)) (h2 t (List.mem_cons_self t u)) hdata with ⟨hst, htail⟩
      have hs : s = t := by
        cases s
        cases t
        simp only [String.data] at hst
        rw [hst]
      subst hs
      refine congrArg (s :: ·) ?_
      cases r with
      | nil =>
        cases u with
        | nil => rfl
        | cons v u' =>
          rw [pySepTail, pySepTail] at htail
          exact absurd htail (List.ne_nil_of_length_pos (by simp)).symm
      | cons v r' =>
        cases u with
        | nil =>
          rw [pySepTail, pySepTail] at htail
          exact absurd htail (List.ne_nil_of_length_pos (by simp))
        | cons w u' =>
          rw [pySepTail, pySepTail] at htail
          simp only [List.cons.injEq, true_and] at htail
          have hr1 : ∀ x ∈ v :: r', quoteChar ∉ x.data :=
            fun x hx => h1 x (List.mem_cons_of_mem _ hx)
          have hr2 : ∀ x ∈ w :: u', quoteChar ∉ x.data :=
            fun x hx => h2 x (List.mem_cons_of_mem _ hx)
          exact ih (w :: u') hr1 hr2 htail

/-- `'{}-{}'.format(self.config['filter_mode'], sst_list)`: filter-mode
name, a dash, then Python's rendering of the subset list. -/
def subsetKey (mode : String) (l : List String) : List Char :=
  mode.data ++ '-' :: '[' :: (pyListRepr l ++ [']'])

theorem subsetKey_inj (mode : String) (l₁ l₂ : List String)
    (h1 : ∀ x ∈ l₁, quoteChar ∉ x.data) (h2 : ∀ x ∈ l₂, quoteChar ∉ x.data)
    (h : subsetKey mode l₁ = subsetKey mode l₂) : l₁ = l₂ := by
  unfold subsetKey at h
  have h' := List.append_cancel_left h
  simp only [List.cons.injEq, true_and] at h'
  have h'' := List.append_cancel_right h'
  exact pyListRepr_inj l₁ l₂ h1 h2 h''

/-! ## The Python result dictionary -/

/-- Assignment `d[k] = v` on an insertion-ordered dictionary embedded
as an association list: overwrite in place if the key exists,
otherwise append. -/
def pyDictInsert {V : Type} (d : List (List Char × V)) (k : List Char) (v : V) :
    List (List Char × V) :=
  if d.any (fun p => p.1 == k) then d.map (fun p => if p.1 == k then (k, v) else p)
  else d ++ [(k, v)]

theorem pyDictFoldl_fresh {α V : Type} (k : α → List Char) (v : α → V) :
    ∀ (items : List α) (d : List (List Char × V)),
      (∀ t ∈ items, ∀ p ∈ d, p.1 ≠ k t) → (items.map k).Nodup →
      items.foldl (fun acc t => pyDictInsert acc (k t) (v t)) d
        = d ++ items.map (fun t => (k t, v t)) := by
  intro items
  induction items with
  | nil => intro d _ _; simp
  | cons t rest ih =>
    intro d hfresh hnd
    have hany : d.any (fun p => p.1 == k t) = false := by
      rw [List.any_eq_false]
      intro p hp
      simpa using hfresh t (List.mem_cons_self t rest) p hp
    rw [List.foldl_cons]
    rw [show pyDictInsert d (k t) (v t) = d ++ [(k t, v t)] from by
      unfold pyDictInsert; rw [hany]; simp]
    have hnd' : (rest.map k).Nodup := (List.nodup_cons.mp (by simpa using hnd)).2
    have hkt : k t ∉ rest.map k := (List.nodup_cons.mp (by simpa using hnd)).1
    rw [ih (d ++ [(k t, v t)]) ?_ hnd']
    · simp
    · intro s hs p hp
      rcases List.mem_append.mp hp with hpd | hpt
      · exact hfresh s (List.mem_cons_of_mem _ hs) p hpd
      · simp at hpt
        rw [hpt]
        intro hcon
        apply hkt
        have hk : k t = k s := hcon
        rw [hk]
        exact List.mem_map_of_mem k hs

/-! ## `PFCNTrainer.evaluate` -/

/-- `PFCNTrainer.evaluate` (trainer.py 1047-1106), with the per-subset
evaluation pass (batch loop, collector, `self.evaluator.evaluate`)
abstracted as `evalRes`.  `modeCfg` is `self.config['filter_mode']`
(used in the keys) and `filterMode` is the trainer field
`self.filter_mode = config['filter_mode'].lower()` (used in the
guard).  For `filter_mode != 'none'`, insert one result per non-empty
subset, sizes ascending, under the formatted key; otherwise a single
entry keyed by the filter-mode name. -/
def pfcnEvaluateFinal {V : Type} (modeCfg filterMode : String) (attrs : List String)
    (evalRes : Option (List String) → V) : List (List Char × V) :=
  if filterMode ≠ "none" then
    (allSubsets attrs).foldl
      (fun acc l => pyDictInsert acc (subsetKey modeCfg l) (evalRes (some l))) []
  else
    pyDictInsert [] modeCfg.data (evalRes none)

/-- C1: with `filter_mode != 'none'`, distinct quote-free attribute
names, the final dictionary of `PFCNTrainer.evaluate` has exactly
`2^N − 1` entries — one per non-empty subset of `sst_attr_list`,
enumerated by increasing size then declaration order (the order of
`allSubsets`) — each keyed by the filter-mode/subset label, with no
duplicate keys; `allSubsets attrs` contains exactly the non-empty
sublists of `attrs`. -/
theorem pfcn_evaluate_combinatorial {V : Type} (modeCfg filterMode : String)
    (attrs : List String) (evalRes : Option (List String) → V)
    (hmode : filterMode ≠ "none") (hnd : attrs.Nodup)
    (hq : ∀ x ∈ attrs, quoteChar ∉ x.data) :
    pfcnEvaluateFinal modeCfg filterMode attrs evalRes
        = (allSubsets attrs).map (fun l => (subsetKey modeCfg l, evalRes (some l))) ∧
      (pfcnEvaluateFinal modeCfg filterMode attrs evalRes).length = 2 ^ attrs.length - 1 ∧
      ((pfcnEvaluateFinal modeCfg filterMode attrs evalRes).map Prod.fst).Nodup ∧
      (∀ t, t ∈ allSubsets attrs ↔ (t.Sublist attrs ∧ t ≠ [])) := by
  have hquotes : ∀ t ∈ allSubsets attrs, ∀ x ∈ t, quoteChar ∉ x.data := by
    intro t ht x hx
    exact hq x ((allSubsets_sound attrs t ht).1.subset hx)
  have hkeys : ((allSubsets attrs).map (subsetKey modeCfg)).Nodup := by
    refine List.Nodup.map_on ?_ (allSubsets_nodup attrs hnd)
    intro t1 ht1 t2 ht2 heq
    exact subsetKey_inj modeCfg t1 t2 (hquotes t1 ht1) (hquotes t2 ht2) heq
  have hmain : pfcnEvaluateFinal modeCfg filterMode attrs evalRes
      = (allSubsets attrs).map (fun l => (subsetKey modeCfg l, evalRes (some l))) := by
    unfold pfcnEvaluateFinal
    rw [if_pos hmode]
    rw [pyDictFoldl_fresh (subsetKey modeCfg) (fun l => evalRes (some l)) (allSubsets attrs) []
      (fun t _ p hp => absurd hp (List.not_mem_nil p)) hkeys]
    simp
  refine ⟨hmain, ?_, ?_, ?_⟩
  · rw [hmain, List.length_map, allSubsets_length]
  · rw [hmain, List.map_map]
    have : (Prod.fst ∘ fun l => (subsetKey modeCfg l, evalRes (some l)))
        = subsetKey modeCfg := rfl
    rw [this]
    exact hkeys
  · intro t
    constructor
    · exact allSubsets_sound attrs t
    · intro ⟨hsub, hne⟩
      exact allSubsets_complete attrs t hsub hne

/-- Closed witness for `pfcn_evaluate_combinatorial`: filter mode `cm`
and the two attributes `gender`, `age` produce the three entries
keyed by the subsets `[gender]`, `[age]`, `[gender, age]`. -/
theorem pfcn_evaluate_combinatorial_witness :
    pfcnEvaluateFinal "cm" "cm" ["gender", "age"] (fun _ => (0 : ℕ))
        = [(subsetKey "cm" ["gender"], 0), (subsetKey "cm" ["age"], 0),
           (subsetKey "cm" ["gender", "age"], 0)] ∧
      (pfcnEvaluateFinal "cm" "cm" ["gender", "age"] (fun _ => (0 : ℕ))).length = 3 := by
  have h := pfcn_evaluate_combinatorial "cm" "cm" ["gender", "age"] (fun _ => (0 : ℕ))
    (by decide) (by decide) (by decide)
  refine ⟨?_, ?_⟩
  · rw [h.1]
    rfl
  · rw [h.2.1]
    rfl

/-! ## `PFCNTrainer.pfcn_evaluate` and `_valid_epoch`

`PFCNTrainer.pfcn_evaluate` (trainer.py 965-1030) is the validation
path used by `_valid_epoch` (trainer.py 1032-1045): for
`filter_mode != 'none'` it loops batches outer, subset sizes and
subsets inner, feeding every (batch, subset) evaluation into the one
shared `self.eval_collector`, then calls `self.evaluator.evaluate`
once on the accumulated structure and returns that single mapping —
no per-subset keys.  `_valid_epoch` turns it into the early-stopping
valid score via `calculate_valid_score`. -/

/-- The sequence of `eval_batch_collect` calls of `pfcn_evaluate`, as
(batch, revealed subset) pairs in collection order. -/
def pfcnValidStruct {B : Type} (filterMode : String) (attrs : List String)
    (batches : List B) : List (B × Option (List String)) :=
  if filterMode ≠ "none" then
    batches.foldl (fun acc b => acc ++ (allSubsets attrs).map (fun l => (b, some l))) []
  else
    batches.foldl (fun acc b => acc ++ [(b, none)]) []

/-- `pfcn_evaluate`: one `self.evaluator.evaluate` call on the single
collected structure (`agg` abstracts collector finalization plus the
evaluator). -/
def pfcnEvaluateSingle {B V : Type} (filterMode : String) (attrs : List String)
    (batches : List B) (agg : List (B × Option (List String)) → V) : V :=
  agg (pfcnValidStruct filterMode attrs batches)

/-- `PFCNTrainer._valid_epoch`: valid score and valid result, with
`calculate_valid_score` abstracted as `vs`. -/
def pfcnValidEpoch {B V : Type} (filterMode : String) (attrs : List String)
    (batches : List B) (agg : List (B × Option (List String)) → V) (vs : V → ℚ) : ℚ × V :=
  (vs (pfcnEvaluateSingle filterMode attrs batches agg),
    pfcnEvaluateSingle filterMode attrs batches agg)

theorem foldl_append_flatMap {B E : Type} (f : B → List E) :
    ∀ (l : List B) (acc : List E),
      l.foldl (fun a b => a ++ f b) acc = acc ++ l.flatMap f := by
  intro l
  induction l with
  | nil => intro acc; simp
  | cons b rest ih =>
    intro acc
    rw [List.foldl_cons, ih, List.flatMap_cons, List.append_assoc]

theorem sum_map_const {B : Type} (c : ℕ) :
    ∀ l : List B, (l.map (fun _ => c)).sum = l.length * c := by
  intro l
  induction l with
  | nil => simp
  | cons b rest ih =>
    rw [List.map_cons, List.sum_cons, ih, List.length_cons]
    ring

/-- C8: during training validation with `filter_mode != 'none'`, the
collector receives every batch once per non-empty subset — all
`|batches| * (2^N − 1)` quadruples pooled in one structure, batches
outer and subsets inner — and `pfcn_evaluate` returns the single
mapping obtained by aggregating that pooled structure once, which is
what `_valid_epoch` feeds to early stopping; no per-subset keys
exist, so the valid score pools all subsets together. -/
theorem pfcn_valid_pools_all_subsets {B V : Type} (filterMode : String)
    (attrs : List String) (batches : List B)
    (agg : List (B × Option (List String)) → V) (vs : V → ℚ)
    (hmode : filterMode ≠ "none") :
    pfcnValidStruct filterMode attrs batches
        = batches.flatMap (fun b => (allSubsets attrs).map (fun l => (b, some l))) ∧
      (pfcnValidStruct filterMode attrs batches).length
        = batches.length * (2 ^ attrs.length - 1) ∧
      pfcnEvaluateSingle filterMode attrs batches agg
        = agg (batches.flatMap (fun b => (allSubsets attrs).map (fun l => (b, some l)))) ∧
      pfcnValidEpoch filterMode attrs batches agg vs
        = (vs (pfcnEvaluateSingle filterMode attrs batches agg),
            pfcnEvaluateSingle filterMode attrs batches agg) := by
  have hstruct : pfcnValidStruct filterMode attrs batches
      = batches.flatMap (fun b => (allSubsets attrs).map (fun l => (b, some l))) := by
    unfold pfcnValidStruct
    rw [if_pos hmode]
    rw [foldl_append_flatMap (fun b => (allSubsets attrs).map (fun l => (b, some l))) batches []]
    simp
  refine ⟨hstruct, ?_, ?_, rfl⟩
  · rw [hstruct, List.length_flatMap]
    have hlen : ∀ b : B, ((allSubsets attrs).map (fun l => (b, some l))).length
        = 2 ^ attrs.length - 1 := by
      intro b
      rw [List.length_map, allSubsets_length]
    calc (batches.map (fun b => ((allSubsets attrs).map (fun l => (b, some l))).length)).sum
        = (batches.map (fun _ => 2 ^ attrs.length - 1)).sum := by
          refine congrArg List.sum ?_
          exact List.map_congr_left (fun b _ => hlen b)
      _ = batches.length * (2 ^ attrs.length - 1) := sum_map_const _ batches
  · unfold pfcnEvaluateSingle
    rw [hstruct]

/-- Closed witness for `pfcn_valid_pools_all_subsets`: two batches,
two attributes — six pooled collector entries, one aggregation. -/
theorem pfcn_valid_pools_all_subsets_witness :
    (pfcnValidStruct "cm" ["gender", "age"] [10, 20]).length = 2 * 3 ∧
      pfcnEvaluateSingle "cm" ["gender", "age"] ([10, 20] : List ℕ) List.length = 6 := by
  have h := pfcn_valid_pools_all_subsets "cm" ["gender", "age"] ([10, 20] : List ℕ)
    List.length (fun v => (v : ℚ)) (by decide)
  constructor
  · rw [h.2.1]
    rfl
  · rw [h.2.2.1]
    rfl

end RecTrainer
